import Mathlib

/-!
Verification of the `cache` crate: a shared order-preserving associative
container (`src/map.rs`, `LinkedHashMap`) and four policy layers built on it
(FIFO `src/fifo.rs`, LRU `src/lru.rs`, SLRU `src/slru.rs`, 2Q `src/q2.rs`).

The shallow embedding abstracts the intrusive doubly linked list plus hash
index of `LinkedHashMap` as the front-to-back list of its `(key, value)`
entries: the hash index holds exactly the keys on the list, every operation
of `map.rs` is O(1)-implemented pointer surgery whose observable effect is a
pure transformation of that sequence.  Eviction-callback invocations are
modelled as an explicit list of the `(key, value)` pairs passed to the
callback, returned by each operation that can trigger the callback and
accumulated by trace runners.
-/

set_option linter.unusedSectionVars false

namespace LinkedHashMap

variable {K V : Type} [DecidableEq K]

/-- Hash-index lookup `get`: the value stored for `k`, no reordering
(`map.rs` lines 341-349). -/
def get : List (K × V) → K → Option V
  | [], _ => none
  | (k0, v) :: rest, k => if k = k0 then some v else get rest k

/-- Membership test `contains_key` (`map.rs` lines 283-289): a hash-index
lookup, the same probe as `get`. -/
def contains_key (m : List (K × V)) (k : K) : Bool :=
  (get m k).isSome

/-- In-place value replacement through `get_mut` and `ptr::replace`: the
node keeps its key and its position, only the value slot changes. -/
def set_value : List (K × V) → K → V → List (K × V)
  | [], _, _ => []
  | (k0, v0) :: rest, k, v =>
    if k = k0 then (k0, v) :: rest else (k0, v0) :: set_value rest k v

/-- Keyed removal `remove_entry` (`map.rs` lines 409-418): drop `k`'s node
from index and list, hand its key and value back. -/
def remove_entry : List (K × V) → K → Option (K × V) × List (K × V)
  | [], _ => (none, [])
  | (k0, v) :: rest, k =>
    if k = k0 then (some (k0, v), rest)
    else
      let r := remove_entry rest k
      (r.1, (k0, v) :: r.2)

/-- Keyed removal `remove` (`map.rs` lines 397-407): as `remove_entry` but
only the value is handed back. -/
def remove (m : List (K × V)) (k : K) : Option V × List (K × V) :=
  let r := remove_entry m k
  (r.1.map Prod.snd, r.2)

/-- Insertion with possible replacement, `insert` + `push_front_node`
(`map.rs` lines 420-439): when `k` is present its node's value is replaced,
the node is unlinked and relinked at the head and the old value returned;
otherwise a fresh node is linked at the head. -/
def push_front (m : List (K × V)) (k : K) (v : V) : List (K × V) × Option V :=
  match remove_entry m k with
  | (some (k0, old), rest) => ((k0, v) :: rest, some old)
  | (none, _) => ((k, v) :: m, none)

/-- Symmetric insertion `push_back` (`map.rs` lines 441-445). -/
def push_back (m : List (K × V)) (k : K) (v : V) : List (K × V) × Option V :=
  match remove_entry m k with
  | (some (k0, old), rest) => (rest ++ [(k0, v)], some old)
  | (none, _) => (m ++ [(k, v)], none)

/-- Tail removal `pop_back` (`map.rs` lines 325-329): unlink the tail node,
drop it from the index, return its key and value with the remaining list. -/
def pop_back (m : List (K × V)) : Option ((K × V) × List (K × V)) :=
  match m.getLast? with
  | some p => some (p, m.dropLast)
  | none => none

/-- Head removal `pop_front` (`map.rs` lines 319-323). -/
def pop_front (m : List (K × V)) : Option ((K × V) × List (K × V)) :=
  match m with
  | [] => none
  | p :: rest => some (p, rest)

/-- Unconditional unlink-and-relink at the head, `move_to_front`
(`map.rs` lines 360-374); a no-op returning `false` when `k` is absent. -/
def move_to_front (m : List (K × V)) (k : K) : Bool × List (K × V) :=
  match remove_entry m k with
  | (some p, rest) => (true, p :: rest)
  | (none, _) => (false, m)

/-- Symmetric `move_to_back` (`map.rs` lines 376-390). -/
def move_to_back (m : List (K × V)) (k : K) : Bool × List (K × V) :=
  match remove_entry m k with
  | (some p, rest) => (true, rest ++ [p])
  | (none, _) => (false, m)

/-- Peek at the head, `front` (`map.rs` lines 292-298). -/
def front (m : List (K × V)) : Option (K × V) :=
  m.head?

/-- Peek at the tail, `back` (`map.rs` lines 306-312). -/
def back (m : List (K × V)) : Option (K × V) :=
  m.getLast?

end LinkedHashMap

/-- The operations a cache consumer can invoke, the alphabet of the traces
over which the invariants are stated. -/
inductive Op (K V : Type) where
  | add (k : K) (v : V)
  | get (k : K)
  | peek (k : K)
  | remove (k : K)
  | purge

/-- FIFO cache state (`fifo.rs` lines 8-17): one ordered map and the two
statistics counters.  The eviction callback is modelled by the list of
`(key, value)` pairs an operation passes to it. -/
structure Fifo (K V : Type) where
  max_size : Nat
  hit_count : Nat
  miss_count : Nat
  l_map : List (K × V)

namespace Fifo

variable {K V : Type} [DecidableEq K]

/-- Construction (`fifo.rs` lines 20-39): `max_size` clamped up to 1. -/
def new (max_size : Nat) : Fifo K V :=
  { max_size := if max_size < 1 then 1 else max_size
    hit_count := 0
    miss_count := 0
    l_map := [] }

/-- FIFO `get` (`fifo.rs` lines 56-67): lookup only, no reorder; a hit
bumps `hit_count`, a miss bumps `miss_count`. -/
def get (c : Fifo K V) (k : K) : Fifo K V × Option V :=
  match LinkedHashMap.get c.l_map k with
  | some v => ({ c with hit_count := c.hit_count + 1 }, some v)
  | none => ({ c with miss_count := c.miss_count + 1 }, none)

/-- FIFO `peek` (`fifo.rs` lines 69-75): the lookup of `get` with no
counter update and no other state change. -/
def peek (c : Fifo K V) (k : K) : Option V :=
  LinkedHashMap.get c.l_map k

/-- FIFO `remove` (`fifo.rs` lines 77-83): unconditional removal, never
invokes the eviction callback. -/
def remove (c : Fifo K V) (k : K) : Fifo K V × Option V :=
  let r := LinkedHashMap.remove c.l_map k
  ({ c with l_map := r.2 }, r.1)

/-- FIFO `remove_entry` (`fifo.rs` lines 85-91). -/
def remove_entry (c : Fifo K V) (k : K) : Fifo K V × Option (K × V) :=
  let r := LinkedHashMap.remove_entry c.l_map k
  ({ c with l_map := r.2 }, r.1)

/-- FIFO `add` (`fifo.rs` lines 93-106): an existing key has its value
replaced in place, without reordering, returning the old value; otherwise,
when the cache is full, the back entry is popped and passed to the eviction
callback, and the new entry is pushed at the front. -/
def add (c : Fifo K V) (k : K) (v : V) : Fifo K V × Option V × List (K × V) :=
  match LinkedHashMap.get c.l_map k with
  | some old => ({ c with l_map := LinkedHashMap.set_value c.l_map k v }, some old, [])
  | none =>
    if c.l_map.length + 1 > c.max_size then
      match LinkedHashMap.pop_back c.l_map with
      | some (p, rest) =>
        ({ c with l_map := (LinkedHashMap.push_front rest k v).1 }, none, [p])
      | none =>
        ({ c with l_map := (LinkedHashMap.push_front c.l_map k v).1 }, none, [])
    else
      ({ c with l_map := (LinkedHashMap.push_front c.l_map k v).1 }, none, [])

/-- FIFO `purge` (`fifo.rs` lines 112-114): `l_map.clear()`; the counters
are untouched. -/
def purge (c : Fifo K V) : Fifo K V :=
  { c with l_map := [] }

/-- FIFO `len` (`fifo.rs` lines 108-110). -/
def len (c : Fifo K V) : Nat :=
  c.l_map.length

/-- FIFO `is_empty` (`fifo.rs` lines 116-118). -/
def is_empty (c : Fifo K V) : Bool :=
  c.l_map.isEmpty

/-- FIFO `stat` (`fifo.rs` lines 124-129): the `Info` snapshot as the pair
`(hit_count, miss_count)`. -/
def stat (c : Fifo K V) : Nat × Nat :=
  (c.hit_count, c.miss_count)

/-- One trace step: the state after the operation together with the pairs
passed to the eviction callback during it. -/
def step (c : Fifo K V) : Op K V → Fifo K V × List (K × V)
  | .add k v => let r := c.add k v; (r.1, r.2.2)
  | .get k => ((c.get k).1, [])
  | .peek _ => (c, [])
  | .remove k => ((c.remove k).1, [])
  | .purge => (c.purge, [])

/-- A trace: the final state and all eviction-callback invocations. -/
def run (c : Fifo K V) : List (Op K V) → Fifo K V × List (K × V)
  | [] => (c, [])
  | op :: ops =>
    let s := step c op
    let r := run s.1 ops
    (r.1, s.2 ++ r.2)

end Fifo

/-- LRU cache state (`lru.rs` lines 8-17): structurally identical to the
FIFO cache, the policy differs in `get` and `add`. -/
structure Lru (K V : Type) where
  max_size : Nat
  hit_count : Nat
  miss_count : Nat
  l_map : List (K × V)

namespace Lru

variable {K V : Type} [DecidableEq K]

/-- Construction (`lru.rs` lines 20-39): `max_size` clamped up to 1. -/
def new (max_size : Nat) : Lru K V :=
  { max_size := if max_size < 1 then 1 else max_size
    hit_count := 0
    miss_count := 0
    l_map := [] }

/-- LRU `get` (`lru.rs` lines 56-66): on a hit the entry is moved to the
front and its value returned; the statistics counters are not touched by
this function (neither on hit nor on miss). -/
def get (c : Lru K V) (k : K) : Lru K V × Option V :=
  if LinkedHashMap.contains_key c.l_map k then
    let m := (LinkedHashMap.move_to_front c.l_map k).2
    ({ c with l_map := m }, LinkedHashMap.get m k)
  else
    (c, none)

/-- LRU `peek` (`lru.rs` lines 68-74): lookup without reordering. -/
def peek (c : Lru K V) (k : K) : Option V :=
  LinkedHashMap.get c.l_map k

/-- LRU `remove` (`lru.rs` lines 76-82): no eviction callback. -/
def remove (c : Lru K V) (k : K) : Lru K V × Option V :=
  let r := LinkedHashMap.remove c.l_map k
  ({ c with l_map := r.2 }, r.1)

/-- LRU `remove_entry` (`lru.rs` lines 84-90). -/
def remove_entry (c : Lru K V) (k : K) : Lru K V × Option (K × V) :=
  let r := LinkedHashMap.remove_entry c.l_map k
  ({ c with l_map := r.2 }, r.1)

/-- LRU `add` (`lru.rs` lines 92-107): an existing key has its value
replaced and is moved to the front, returning the old value; otherwise the
entry is pushed at the front and, when the map now exceeds `max_size`, the
back entry is popped and passed to the eviction callback. -/
def add (c : Lru K V) (k : K) (v : V) : Lru K V × Option V × List (K × V) :=
  match LinkedHashMap.get c.l_map k with
  | some old =>
    let m1 := LinkedHashMap.set_value c.l_map k v
    ({ c with l_map := (LinkedHashMap.move_to_front m1 k).2 }, some old, [])
  | none =>
    let m1 := (LinkedHashMap.push_front c.l_map k v).1
    if m1.length > c.max_size then
      match LinkedHashMap.pop_back m1 with
      | some (p, rest) => ({ c with l_map := rest }, none, [p])
      | none => ({ c with l_map := m1 }, none, [])
    else
      ({ c with l_map := m1 }, none, [])

/-- LRU `purge` (`lru.rs` lines 113-115): counters untouched. -/
def purge (c : Lru K V) : Lru K V :=
  { c with l_map := [] }

/-- LRU `len` (`lru.rs` lines 109-111). -/
def len (c : Lru K V) : Nat :=
  c.l_map.length

/-- LRU `is_empty` (`lru.rs` lines 117-119). -/
def is_empty (c : Lru K V) : Bool :=
  c.l_map.isEmpty

/-- LRU `stat` (`lru.rs` lines 125-130). -/
def stat (c : Lru K V) : Nat × Nat :=
  (c.hit_count, c.miss_count)

/-- One trace step with its eviction-callback invocations. -/
def step (c : Lru K V) : Op K V → Lru K V × List (K × V)
  | .add k v => let r := c.add k v; (r.1, r.2.2)
  | .get k => ((c.get k).1, [])
  | .peek _ => (c, [])
  | .remove k => ((c.remove k).1, [])
  | .purge => (c.purge, [])

/-- A trace: the final state and all eviction-callback invocations. -/
def run (c : Lru K V) : List (Op K V) → Lru K V × List (K × V)
  | [] => (c, [])
  | op :: ops =>
    let s := step c op
    let r := run s.1 ops
    (r.1, s.2 ++ r.2)

end Lru

/-- SLRU cache state (`slru.rs` lines 10-22): the probationary map `in_`,
the protected map `main`, the clamped total capacity and the two derived
segment capacities, plus the statistics counters. -/
structure Slru (K V : Type) where
  max_size : Nat
  max_size_in : Nat
  max_size_main : Nat
  hit_count : Nat
  miss_count : Nat
  in_ : List (K × V)
  main : List (K × V)

namespace Slru

variable {K V : Type} [DecidableEq K]

/-- Construction with the default main-cache factor 0.75 (`slru.rs` lines
29-55, 176-184): `size` is clamped up to 2; the source derives
`max_size_main = (max_size as f64 * 0.75) as usize` and
`max_size_in = (max_size as f64 * 0.25) as usize`.  0.75 and 0.25 are exact
binary fractions, so the truncated products equal the integer quotients
`3 * max_size / 4` and `max_size / 4` used here (exactly, for every size
whose triple fits in the 53-bit significand, i.e. every constructible one). -/
def new (size : Nat) : Slru K V :=
  let max_size := if size < 2 then 2 else size
  { max_size
    max_size_in := max_size / 4
    max_size_main := max_size * 3 / 4
    hit_count := 0
    miss_count := 0
    in_ := []
    main := [] }

/-- First phase of SLRU `ensure_space` (`slru.rs` lines 112-116): with the
`main` flag set and the protected segment at or over its cap, the back of
`main` is demoted to the front of `in_`. -/
def demote (c : Slru K V) (main_flag : Bool) : Slru K V :=
  if main_flag = true ∧ c.max_size_main ≤ c.main.length then
    match LinkedHashMap.pop_back c.main with
    | some (p, m') =>
      { c with main := m', in_ := (LinkedHashMap.push_front c.in_ p.1 p.2).1 }
    | none => c
  else c

/-- Second phase of SLRU `ensure_space` (`slru.rs` lines 118-128): unless
total occupancy is below `max_size`, the back of `in_` is popped and passed
to the eviction callback when `in_` is non-empty and over its cap, or
exactly at its cap on a non-promotion call. -/
def evict_in (c : Slru K V) (main_flag : Bool) : Slru K V × List (K × V) :=
  if c.in_.length + c.main.length < c.max_size then (c, [])
  else if 0 < c.in_.length ∧ (c.max_size_in < c.in_.length ∨
      (c.in_.length = c.max_size_in ∧ main_flag = false)) then
    match LinkedHashMap.pop_back c.in_ with
    | some (p, in') => ({ c with in_ := in' }, [p])
    | none => (c, [])
  else (c, [])

/-- SLRU `ensure_space` (`slru.rs` lines 111-129): the demotion phase
followed by the probationary-eviction phase. -/
def ensure_space (c : Slru K V) (main_flag : Bool) : Slru K V × List (K × V) :=
  evict_in (demote c main_flag) main_flag

/-- SLRU `get` (`slru.rs` lines 72-91): a protected hit moves to the front
of `main`; a probationary hit removes the entry from `in_`, makes space
with `ensure_space(true)` and pushes it at the front of `main`; either hit
bumps `hit_count`, a miss bumps `miss_count`. -/
def get (c : Slru K V) (k : K) : Slru K V × Option V × List (K × V) :=
  if LinkedHashMap.contains_key c.main k then
    let m := (LinkedHashMap.move_to_front c.main k).2
    ({ c with hit_count := c.hit_count + 1, main := m }, LinkedHashMap.get m k, [])
  else
    match LinkedHashMap.remove_entry c.in_ k with
    | (some p, in') =>
      let r := ensure_space { c with hit_count := c.hit_count + 1, in_ := in' } true
      let m := (LinkedHashMap.push_front r.1.main p.1 p.2).1
      ({ r.1 with main := m }, LinkedHashMap.get m k, r.2)
    | (none, _) => ({ c with miss_count := c.miss_count + 1 }, none, [])

/-- SLRU `add` (`slru.rs` lines 93-109): replacement and move-to-front
inside `main`; a probationary key is promoted (its stored value is
discarded, `none` is returned); a fresh key goes to the front of `in_`
after `ensure_space(false)`. -/
def add (c : Slru K V) (k : K) (v : V) : Slru K V × Option V × List (K × V) :=
  match LinkedHashMap.get c.main k with
  | some old =>
    let m1 := LinkedHashMap.set_value c.main k v
    ({ c with main := (LinkedHashMap.move_to_front m1 k).2 }, some old, [])
  | none =>
    match LinkedHashMap.remove_entry c.in_ k with
    | (some _, in') =>
      let r := ensure_space { c with in_ := in' } true
      ({ r.1 with main := (LinkedHashMap.push_front r.1.main k v).1 }, none, r.2)
    | (none, _) =>
      let r := ensure_space c false
      ({ r.1 with in_ := (LinkedHashMap.push_front r.1.in_ k v).1 }, none, r.2)

/-- SLRU `remove` (`slru.rs` lines 131-136): try `main`, then `in_`; the
eviction callback is not involved. -/
def remove (c : Slru K V) (k : K) : Slru K V × Bool :=
  match LinkedHashMap.remove c.main k with
  | (some _, m') => ({ c with main := m' }, true)
  | (none, _) =>
    match LinkedHashMap.remove c.in_ k with
    | (some _, in') => ({ c with in_ := in' }, true)
    | (none, _) => (c, false)

/-- SLRU `peek` (`slru.rs` lines 151-156): `main` first, then `in_`;
no mutation, no counters. -/
def peek (c : Slru K V) (k : K) : Option V :=
  match LinkedHashMap.get c.main k with
  | some v => some v
  | none => LinkedHashMap.get c.in_ k

/-- SLRU `purge` (`slru.rs` lines 138-141): clear both maps, counters
untouched. -/
def purge (c : Slru K V) : Slru K V :=
  { c with main := [], in_ := [] }

/-- SLRU `len` (`slru.rs` lines 143-145). -/
def len (c : Slru K V) : Nat :=
  c.main.length + c.in_.length

/-- SLRU `is_empty` (`slru.rs` lines 147-149). -/
def is_empty (c : Slru K V) : Bool :=
  c.main.isEmpty && c.in_.isEmpty

/-- SLRU `stat` (`slru.rs` lines 163-168). -/
def stat (c : Slru K V) : Nat × Nat :=
  (c.hit_count, c.miss_count)

/-- One trace step with its eviction-callback invocations. -/
def step (c : Slru K V) : Op K V → Slru K V × List (K × V)
  | .add k v => let r := c.add k v; (r.1, r.2.2)
  | .get k => let r := c.get k; (r.1, r.2.2)
  | .peek _ => (c, [])
  | .remove k => ((c.remove k).1, [])
  | .purge => (c.purge, [])

/-- A trace: the final state and all eviction-callback invocations. -/
def run (c : Slru K V) : List (Op K V) → Slru K V × List (K × V)
  | [] => (c, [])
  | op :: ops =>
    let s := step c op
    let r := run s.1 ops
    (r.1, s.2 ++ r.2)

/-- The occupancy invariant the bounded-size claims state for SLRU: total
occupancy within `max_size` and the protected segment within its cap. -/
def Inv (c : Slru K V) : Prop :=
  c.in_.length + c.main.length ≤ c.max_size ∧ c.main.length ≤ c.max_size_main

/-- The relations between the clamped capacity and the derived segment caps
that construction establishes. -/
def SizeOk (c : Slru K V) : Prop :=
  c.max_size_in + c.max_size_main ≤ c.max_size ∧ 1 ≤ c.max_size_main ∧
    c.max_size_main < c.max_size


end Slru

/-- 2Q cache state (`q2.rs` lines 11-26): admission queue `in_`, hot set
`main`, ghost list `out` of 64-bit key fingerprints (value type unit), the
clamped capacity, the derived `in`/`out` caps, and the hasher, modelled as
the fingerprint function `hash`. -/
structure Q2 (K V : Type) where
  max_size : Nat
  max_size_in : Nat
  max_size_out : Nat
  hit_count : Nat
  miss_count : Nat
  hash : K → Nat
  in_ : List (K × V)
  out : List (Nat × Unit)
  main : List (K × V)

namespace Q2

variable {K V : Type} [DecidableEq K]

/-- Construction with the default factors 0.75 and 0.50 (`q2.rs` lines
33-65, 198-215): `size` clamped up to 2, `max_size_in = (max_size as f64 *
0.25) as usize = max_size / 4`, `max_size_out = (max_size as f64 * 0.50)
as usize = max_size / 2` (the products are exact for every constructible
size, as the factors are exact binary fractions).  The computed
`max_size_main` is used only as a capacity hint and is not stored. -/
def new (size : Nat) (hash : K → Nat) : Q2 K V :=
  let max_size := if size < 2 then 2 else size
  { max_size
    max_size_in := max_size / 4
    max_size_out := max_size / 2
    hit_count := 0
    miss_count := 0
    hash
    in_ := []
    out := []
    main := [] }

/-- 2Q `ensure_space` (`q2.rs` lines 127-149).  Nothing happens below
capacity.  Over capacity, either the back of `in_` is popped (when `in_` is
non-empty and over its cap, or exactly at its cap and the admission was not
through the ghost list), its fingerprint is pushed at the front of `out`
after `out` popped its own back if full, or else the back of `main` is
popped; the popped entry is passed to the eviction callback.  The source
unwraps `main.pop_back()` in the second branch; that `None` case is
unreachable under the cache invariant and is modelled as leaving the state
unchanged. -/
def ensure_space (c : Q2 K V) (recent_exict : Bool) : Q2 K V × List (K × V) :=
  if c.in_.length + c.main.length < c.max_size then (c, [])
  else if 0 < c.in_.length ∧ (c.max_size_in < c.in_.length ∨
      (c.in_.length = c.max_size_in ∧ recent_exict = false)) then
    match LinkedHashMap.pop_back c.in_ with
    | some (p, in') =>
      let out1 :=
        if c.max_size_out < c.out.length + 1 then
          match LinkedHashMap.pop_back c.out with
          | some (_, o') => o'
          | none => c.out
        else c.out
      let out2 := (LinkedHashMap.push_front out1 (c.hash p.1) ()).1
      ({ c with in_ := in', out := out2 }, [p])
    | none => (c, [])
  else
    match LinkedHashMap.pop_back c.main with
    | some (p, m') => ({ c with main := m' }, [p])
    | none => (c, [])

/-- 2Q `get` (`q2.rs` lines 82-100): a `main` hit moves to the front; an
`in_` hit moves the entry into `main` directly (no `ensure_space`); either
hit bumps `hit_count`, a miss bumps `miss_count`. -/
def get (c : Q2 K V) (k : K) : Q2 K V × Option V :=
  if LinkedHashMap.contains_key c.main k then
    let m := (LinkedHashMap.move_to_front c.main k).2
    ({ c with hit_count := c.hit_count + 1, main := m }, LinkedHashMap.get m k)
  else
    match LinkedHashMap.remove_entry c.in_ k with
    | (some p, in') =>
      let m := (LinkedHashMap.push_front c.main p.1 p.2).1
      ({ c with hit_count := c.hit_count + 1, in_ := in', main := m },
        LinkedHashMap.get m k)
    | (none, _) => ({ c with miss_count := c.miss_count + 1 }, none)

/-- 2Q `add` (`q2.rs` lines 102-125): replacement and move-to-front in
`main`; a key found in `in_` moves to the front of `main` with the new
value, returning the previously held one (no `ensure_space`); a key whose
fingerprint sits in the ghost list is admitted straight into `main` after
`ensure_space(true)`; a fresh key goes to the front of `in_` after
`ensure_space(false)`. -/
def add (c : Q2 K V) (k : K) (v : V) : Q2 K V × Option V × List (K × V) :=
  match LinkedHashMap.get c.main k with
  | some old =>
    let m1 := LinkedHashMap.set_value c.main k v
    ({ c with main := (LinkedHashMap.move_to_front m1 k).2 }, some old, [])
  | none =>
    match LinkedHashMap.remove c.in_ k with
    | (some old, in') =>
      ({ c with in_ := in', main := (LinkedHashMap.push_front c.main k v).1 },
        some old, [])
    | (none, _) =>
      match LinkedHashMap.remove c.out (c.hash k) with
      | (some _, out') =>
        let r := ensure_space { c with out := out' } true
        ({ r.1 with main := (LinkedHashMap.push_front r.1.main k v).1 }, none, r.2)
      | (none, _) =>
        let r := ensure_space c false
        ({ r.1 with in_ := (LinkedHashMap.push_front r.1.in_ k v).1 }, none, r.2)

/-- 2Q `remove` (`q2.rs` lines 151-156): the key's fingerprint is dropped
from the ghost list, then the entry is removed from `main` or from `in_`;
the eviction callback is not involved. -/
def remove (c : Q2 K V) (k : K) : Q2 K V × Option V :=
  let out' := (LinkedHashMap.remove c.out (c.hash k)).2
  match LinkedHashMap.remove c.main k with
  | (some v, m') => ({ c with out := out', main := m' }, some v)
  | (none, _) =>
    match LinkedHashMap.remove c.in_ k with
    | (some v, in') => ({ c with out := out', in_ := in' }, some v)
    | (none, _) => ({ c with out := out' }, none)

/-- 2Q `peek` (`q2.rs` lines 172-177): `main` first, then `in_`. -/
def peek (c : Q2 K V) (k : K) : Option V :=
  match LinkedHashMap.get c.main k with
  | some v => some v
  | none => LinkedHashMap.get c.in_ k

/-- 2Q `purge` (`q2.rs` lines 158-162): clear all three maps, counters
untouched. -/
def purge (c : Q2 K V) : Q2 K V :=
  { c with main := [], in_ := [], out := [] }

/-- 2Q `len` (`q2.rs` lines 164-166): the ghost list does not count. -/
def len (c : Q2 K V) : Nat :=
  c.main.length + c.in_.length

/-- 2Q `is_empty` (`q2.rs` lines 168-170). -/
def is_empty (c : Q2 K V) : Bool :=
  c.main.isEmpty && c.in_.isEmpty

/-- 2Q `stat` (`q2.rs` lines 185-190). -/
def stat (c : Q2 K V) : Nat × Nat :=
  (c.hit_count, c.miss_count)

/-- One trace step with its eviction-callback invocations. -/
def step (c : Q2 K V) : Op K V → Q2 K V × List (K × V)
  | .add k v => let r := c.add k v; (r.1, r.2.2)
  | .get k => ((c.get k).1, [])
  | .peek _ => (c, [])
  | .remove k => ((c.remove k).1, [])
  | .purge => (c.purge, [])

/-- A trace: the final state and all eviction-callback invocations. -/
def run (c : Q2 K V) : List (Op K V) → Q2 K V × List (K × V)
  | [] => (c, [])
  | op :: ops =>
    let s := step c op
    let r := run s.1 ops
    (r.1, s.2 ++ r.2)

end Q2

/-- The SLRU warm-up trace, first phase: `add(i, i)` for `i` in `0..128`. -/
def slruWarmAdds : List (Op Nat Nat) :=
  (List.range 128).map (fun i => Op.add i i)

/-- The SLRU warm-up trace, second phase: `get(i)` for `i` in `0..128`. -/
def slruWarmGets : List (Op Nat Nat) :=
  (List.range 128).map (fun i => Op.get i)

/-- The SLRU cache after the warm-up insertions. -/
def slruWarm1 : Slru Nat Nat :=
  (Slru.run (Slru.new 128) slruWarmAdds).1

/-- The SLRU cache after the warm-up insertions and the 128 gets. -/
def slruWarm2 : Slru Nat Nat :=
  (Slru.run slruWarm1 slruWarmGets).1

/-- The 2Q ghost-admission cache: capacity 4, default factors, and the
identity fingerprint function standing for a hasher that gives distinct
fingerprints to the keys involved. -/
def q2Ghost0 : Q2 Nat Nat :=
  Q2.new 4 (fun k => k)

/-- The 2Q ghost-admission trace after `add(i, i)` for `i` in `1..=5`,
with the accumulated eviction-callback invocations. -/
def q2Ghost1 : Q2 Nat Nat × List (Nat × Nat) :=
  Q2.run q2Ghost0 ((List.range 5).map (fun i => Op.add (i + 1) (i + 1)))

/-- The same trace continued with `add(1, 1)`. -/
def q2Ghost2 : Q2 Nat Nat × List (Nat × Nat) :=
  Q2.run q2Ghost1.1 [Op.add 1 1]

/-- The same trace continued with `add(6, 6)`. -/
def q2Ghost3 : Q2 Nat Nat × List (Nat × Nat) :=
  Q2.run q2Ghost2.1 [Op.add 6 6]

namespace LinkedHashMap

variable {K V : Type} [DecidableEq K]

theorem remove_entry_snd_map {m : List (K × V)} {k : K} :
    ((remove_entry m k).1).map Prod.snd = get m k := by
  induction m with
  | nil => rfl
  | cons p rest ih =>
    obtain ⟨k0, v⟩ := p
    by_cases hk : k = k0
    · simp [remove_entry, get, hk]
    · simpa [remove_entry, get, hk] using ih

theorem remove_entry_key {m : List (K × V)} {k k0 : K} {v : V}
    (h : (remove_entry m k).1 = some (k0, v)) : k0 = k := by
  induction m with
  | nil => simp [remove_entry] at h
  | cons p rest ih =>
    obtain ⟨k1, v1⟩ := p
    by_cases hk : k = k1
    · simp [remove_entry, if_pos hk] at h
      exact (h.1.symm.trans hk.symm)
    · simp only [remove_entry, if_neg hk] at h
      exact ih h

theorem length_remove_entry_some {m : List (K × V)} {k : K} {p : K × V}
    (h : (remove_entry m k).1 = some p) :
    ((remove_entry m k).2).length + 1 = m.length := by
  induction m with
  | nil => simp [remove_entry] at h
  | cons q rest ih =>
    obtain ⟨k0, v⟩ := q
    by_cases hk : k = k0
    · simp [remove_entry, if_pos hk]
    · simp only [remove_entry, if_neg hk] at h ⊢
      simpa using ih h

theorem length_remove_entry_le (m : List (K × V)) (k : K) :
    ((remove_entry m k).2).length ≤ m.length := by
  induction m with
  | nil => simp [remove_entry]
  | cons q rest ih =>
    obtain ⟨k0, v⟩ := q
    by_cases hk : k = k0
    · simp [remove_entry, if_pos hk]
    · simp only [remove_entry, if_neg hk, List.length_cons]
      omega

theorem get_of_remove_entry_some {m : List (K × V)} {k k0 : K} {v : V}
    (h : (remove_entry m k).1 = some (k0, v)) : get m k = some v := by
  have := remove_entry_snd_map (m := m) (k := k)
  rw [h] at this
  simpa using this.symm

theorem length_push_front_le (m : List (K × V)) (k : K) (v : V) :
    ((push_front m k v).1).length ≤ m.length + 1 := by
  unfold push_front
  cases h : remove_entry m k with
  | mk fst snd =>
    cases fst with
    | none => simp
    | some p =>
      obtain ⟨k0, old⟩ := p
      have hl : snd.length + 1 = m.length := by
        have := length_remove_entry_some (m := m) (k := k) (p := (k0, old))
        rw [h] at this
        exact this (by simp)
      simp
      omega

theorem length_push_front_of_get_some {m : List (K × V)} {k : K} {old : V} (v : V)
    (h : get m k = some old) : ((push_front m k v).1).length = m.length := by
  unfold push_front
  cases hre : remove_entry m k with
  | mk fst snd =>
    cases fst with
    | none =>
      have := remove_entry_snd_map (m := m) (k := k)
      rw [hre, h] at this
      simp at this
    | some p =>
      obtain ⟨k0, o⟩ := p
      have hl : snd.length + 1 = m.length := by
        have := length_remove_entry_some (m := m) (k := k) (p := (k0, o))
        rw [hre] at this
        exact this (by simp)
      simp
      omega

theorem length_pop_back {m m' : List (K × V)} {p : K × V}
    (h : pop_back m = some (p, m')) : m'.length + 1 = m.length := by
  unfold pop_back at h
  cases hl : m.getLast? with
  | none => rw [hl] at h; simp at h
  | some q =>
    rw [hl] at h
    simp at h
    obtain ⟨-, h2⟩ := h
    have hne : m ≠ [] := by
      intro hm
      rw [hm] at hl
      simp at hl
    subst h2
    have hd := List.length_dropLast m
    have hpos : 0 < m.length := List.length_pos.mpr hne
    omega

theorem pop_back_of_ne_nil {m : List (K × V)} (h : m ≠ []) :
    ∃ p m', pop_back m = some (p, m') := by
  unfold pop_back
  cases hl : m.getLast? with
  | none => exact absurd (List.getLast?_eq_none_iff.mp hl) h
  | some q => exact ⟨q, m.dropLast, rfl⟩

theorem length_set_value (m : List (K × V)) (k : K) (v : V) :
    (set_value m k v).length = m.length := by
  induction m with
  | nil => rfl
  | cons q rest ih =>
    obtain ⟨k0, v0⟩ := q
    by_cases hk : k = k0
    · simp [set_value, if_pos hk]
    · simp [set_value, if_neg hk, ih]

theorem map_fst_set_value (m : List (K × V)) (k : K) (v : V) :
    (set_value m k v).map Prod.fst = m.map Prod.fst := by
  induction m with
  | nil => rfl
  | cons q rest ih =>
    obtain ⟨k0, v0⟩ := q
    by_cases hk : k = k0
    · simp [set_value, if_pos hk]
    · simp [set_value, if_neg hk, ih]

theorem get_set_value_self {m : List (K × V)} {k : K} {old : V} (v : V)
    (h : get m k = some old) : get (set_value m k v) k = some v := by
  induction m with
  | nil => simp [get] at h
  | cons q rest ih =>
    obtain ⟨k0, v0⟩ := q
    by_cases hk : k = k0
    · simp [set_value, if_pos hk, get]
    · simp only [get, if_neg hk] at h
      simp [set_value, if_neg hk, get, hk, ih h]

theorem remove_entry_sublist (m : List (K × V)) (k : K) :
    List.Sublist (remove_entry m k).2 m := by
  induction m with
  | nil => simp [remove_entry]
  | cons q rest ih =>
    obtain ⟨k0, v⟩ := q
    by_cases hk : k = k0
    · simp only [remove_entry, if_pos hk]
      exact (List.sublist_cons_self _ _)
    · simp only [remove_entry, if_neg hk]
      exact List.Sublist.cons₂ _ ih

theorem get_move_to_front_self (m : List (K × V)) (k : K) :
    get ((move_to_front m k).2) k = get m k := by
  unfold move_to_front
  cases hre : remove_entry m k with
  | mk fst snd =>
    cases fst with
    | none => simp
    | some p =>
      obtain ⟨k0, v⟩ := p
      have hk : k0 = k := remove_entry_key (by rw [hre])
      have hv : get m k = some v := get_of_remove_entry_some (by rw [hre])
      subst hk
      simp [get, hv]

theorem front_move_to_front {m : List (K × V)} {k : K} {v : V}
    (h : get m k = some v) : front ((move_to_front m k).2) = some (k, v) := by
  unfold move_to_front
  cases hre : remove_entry m k with
  | mk fst snd =>
    cases fst with
    | none =>
      have := remove_entry_snd_map (m := m) (k := k)
      rw [hre, h] at this
      simp at this
    | some p =>
      obtain ⟨k0, v0⟩ := p
      have hk : k0 = k := remove_entry_key (by rw [hre])
      have hv : get m k = some v0 := get_of_remove_entry_some (by rw [hre])
      rw [h] at hv
      simp at hv
      subst hk
      subst hv
      simp [front]

theorem get_set_value_ne {m : List (K × V)} {k k' : K} (v : V)
    (h : k' ≠ k) : get (set_value m k v) k' = get m k' := by
  induction m with
  | nil => rfl
  | cons q rest ih =>
    obtain ⟨k0, v0⟩ := q
    by_cases hk : k = k0
    · subst hk
      simp [set_value, get, if_neg h]
    · by_cases hk' : k' = k0
      · simp [set_value, if_neg hk, get, if_pos hk']
      · simp [set_value, if_neg hk, get, if_neg hk', ih]

theorem pop_back_eq_none {m : List (K × V)}
    (h : pop_back m = none) : m = [] := by
  unfold pop_back at h
  cases hl : m.getLast? with
  | none => exact List.getLast?_eq_none_iff.mp hl
  | some q => rw [hl] at h; simp at h


end LinkedHashMap

namespace Fifo

variable {K V : Type} [DecidableEq K]

end Fifo

namespace Lru

variable {K V : Type} [DecidableEq K]

theorem step_counters (c : Lru K V) (op : Op K V) :
    (step c op).1.hit_count = c.hit_count ∧ (step c op).1.miss_count = c.miss_count := by
  cases op with
  | add k v =>
    show (c.add k v).1.hit_count = c.hit_count ∧ (c.add k v).1.miss_count = c.miss_count
    unfold add
    split
    · exact ⟨rfl, rfl⟩
    · dsimp only
      split
      · split <;> exact ⟨rfl, rfl⟩
      · exact ⟨rfl, rfl⟩
  | get k =>
    show (c.get k).1.hit_count = c.hit_count ∧ (c.get k).1.miss_count = c.miss_count
    unfold get
    split <;> exact ⟨rfl, rfl⟩
  | peek k => exact ⟨rfl, rfl⟩
  | remove k => exact ⟨rfl, rfl⟩
  | purge => exact ⟨rfl, rfl⟩

theorem run_counters (ops : List (Op K V)) (c : Lru K V) :
    (run c ops).1.hit_count = c.hit_count ∧ (run c ops).1.miss_count = c.miss_count := by
  induction ops generalizing c with
  | nil => exact ⟨rfl, rfl⟩
  | cons op ops ih =>
    have hs := step_counters c op
    have hr := ih (step c op).1
    show (run (step c op).1 ops).1.hit_count = c.hit_count ∧
      (run (step c op).1 ops).1.miss_count = c.miss_count
    omega
end Lru

namespace Slru

variable {K V : Type} [DecidableEq K]

end Slru

theorem LinkedHashMap.length_remove_le {K V : Type} [DecidableEq K]
    (m : List (K × V)) (k : K) :
    ((LinkedHashMap.remove m k).2).length ≤ m.length :=
  LinkedHashMap.length_remove_entry_le m k

namespace Slru

variable {K V : Type} [DecidableEq K]

end Slru

namespace Q2

variable {K V : Type} [DecidableEq K]

theorem es_fields (c : Q2 K V) (b : Bool) :
    (ensure_space c b).1.max_size = c.max_size ∧
    (ensure_space c b).1.max_size_in = c.max_size_in ∧
    (ensure_space c b).1.max_size_out = c.max_size_out := by
  unfold ensure_space
  split
  · exact ⟨rfl, rfl, rfl⟩
  · split
    · split
      · exact ⟨rfl, rfl, rfl⟩
      · exact ⟨rfl, rfl, rfl⟩
    · split <;> exact ⟨rfl, rfl, rfl⟩

theorem es_out_le (c : Q2 K V) (b : Bool) (h1 : 1 ≤ c.max_size_out)
    (h2 : c.out.length ≤ c.max_size_out) :
    (ensure_space c b).1.out.length ≤ c.max_size_out := by
  unfold ensure_space
  split
  · exact h2
  · split
    · split
      · rename_i p in' hp
        dsimp only
        split
        · rename_i hful
          split
          · rename_i q o' hq
            have hlq := LinkedHashMap.length_pop_back hq
            have := LinkedHashMap.length_push_front_le o' (c.hash p.1) ()
            omega
          · rename_i hq
            exfalso
            have hnil := LinkedHashMap.pop_back_eq_none hq
            rw [hnil] at hful
            simp at hful
            omega
        · rename_i hful
          have := LinkedHashMap.length_push_front_le c.out (c.hash p.1) ()
          omega
      · exact h2
    · split <;> exact h2

theorem step_fields (c : Q2 K V) (op : Op K V) :
    (step c op).1.max_size = c.max_size ∧
    (step c op).1.max_size_in = c.max_size_in ∧
    (step c op).1.max_size_out = c.max_size_out := by
  cases op with
  | add k v =>
    show (c.add k v).1.max_size = c.max_size ∧
      (c.add k v).1.max_size_in = c.max_size_in ∧
      (c.add k v).1.max_size_out = c.max_size_out
    unfold add
    split
    · exact ⟨rfl, rfl, rfl⟩
    · split
      · exact ⟨rfl, rfl, rfl⟩
      · split
        · rename_i u out' heq
          have h := es_fields { c with out := out' } true
          exact ⟨h.1, h.2.1, h.2.2⟩
        · have h := es_fields c false
          exact ⟨h.1, h.2.1, h.2.2⟩
  | get k =>
    show (c.get k).1.max_size = c.max_size ∧
      (c.get k).1.max_size_in = c.max_size_in ∧
      (c.get k).1.max_size_out = c.max_size_out
    unfold get
    split
    · exact ⟨rfl, rfl, rfl⟩
    · split <;> exact ⟨rfl, rfl, rfl⟩
  | peek k => exact ⟨rfl, rfl, rfl⟩
  | remove k =>
    show (c.remove k).1.max_size = c.max_size ∧
      (c.remove k).1.max_size_in = c.max_size_in ∧
      (c.remove k).1.max_size_out = c.max_size_out
    unfold remove
    split
    · exact ⟨rfl, rfl, rfl⟩
    · split <;> exact ⟨rfl, rfl, rfl⟩
  | purge => exact ⟨rfl, rfl, rfl⟩

theorem step_out (c : Q2 K V) (op : Op K V) (h1 : 1 ≤ c.max_size_out)
    (h2 : c.out.length ≤ c.max_size_out) :
    (step c op).1.out.length ≤ c.max_size_out := by
  cases op with
  | add k v =>
    show (c.add k v).1.out.length ≤ c.max_size_out
    unfold add
    split
    · exact h2
    · split
      · exact h2
      · split
        · rename_i u out' heq
          have hople : out'.length ≤ c.out.length := by
            have h0 := LinkedHashMap.length_remove_le c.out (c.hash k)
            rw [heq] at h0
            simpa using h0
          have := es_out_le { c with out := out' } true h1 (le_trans hople h2)
          exact this
        · exact es_out_le c false h1 h2
  | get k =>
    show (c.get k).1.out.length ≤ c.max_size_out
    unfold get
    split
    · exact h2
    · split <;> exact h2
  | peek k => exact h2
  | remove k =>
    show (c.remove k).1.out.length ≤ c.max_size_out
    have hople : ((LinkedHashMap.remove c.out (c.hash k)).2).length ≤ c.out.length :=
      LinkedHashMap.length_remove_le c.out (c.hash k)
    unfold remove
    split
    · dsimp only
      omega
    · split
      · dsimp only
        omega
      · dsimp only
        omega
  | purge =>
    show (c.purge).out.length ≤ c.max_size_out
    simp [purge]

theorem run_out (ops : List (Op K V)) (c : Q2 K V) (h1 : 1 ≤ c.max_size_out)
    (h2 : c.out.length ≤ c.max_size_out) :
    (run c ops).1.out.length ≤ c.max_size_out := by
  induction ops generalizing c with
  | nil => exact h2
  | cons op ops ih =>
    show (run (step c op).1 ops).1.out.length ≤ c.max_size_out
    obtain ⟨e1, e2, e3⟩ := step_fields c op
    have hr := ih (step c op).1 (by rw [e3]; exact h1)
      (by rw [e3]; exact step_out c op h1 h2)
    rw [e3] at hr
    exact hr

end Q2

namespace Slru

variable {K V : Type} [DecidableEq K]

end Slru

namespace Q2

variable {K V : Type} [DecidableEq K]

end Q2

set_option maxRecDepth 10000 in
/-- C3: for an SLRU cache with `max_size` 128 and the default main-cache
factor 0.75, inserting `(i, i)` for `i` in `0..128` leaves all 128 entries
in the probationary segment and the protected segment empty; then getting
each `i` in `0..128` in order leaves 32 probationary and 96 protected
entries (`slru.rs` test `test_get_in_main`). -/
theorem c3_slru_warmup :
    (slruWarm1.in_.length = 128 ∧ slruWarm1.main.length = 0) ∧
    (slruWarm2.in_.length = 32 ∧ slruWarm2.main.length = 96) := by
  decide

/-- C4: for a 2Q cache with `max_size` 4, default factors and a hasher
that fingerprints the keys involved injectively (modelled by the identity
fingerprint), `add(i,i)` for `i = 1..=5` gives `|in|=4, |out|=1, |main|=0`
with the eviction callback fired exactly once; a further `add(1,1)` gives
`|in|=3, |out|=1, |main|=1`; a further `add(6,6)` gives `|in|=3, |out|=2,
|main|=1` (`q2.rs` test `test_add_out`). -/
theorem c4_q2_ghost_admission :
    (q2Ghost1.1.in_.length = 4 ∧ q2Ghost1.1.out.length = 1 ∧
      q2Ghost1.1.main.length = 0 ∧ q2Ghost1.2.length = 1) ∧
    (q2Ghost2.1.in_.length = 3 ∧ q2Ghost2.1.out.length = 1 ∧
      q2Ghost2.1.main.length = 1) ∧
    (q2Ghost3.1.in_.length = 3 ∧ q2Ghost3.1.out.length = 2 ∧
      q2Ghost3.1.main.length = 1) := by
  decide

/-- C10: on every cache type and from every prior state, `purge` empties
the cache (`len() = 0` and `is_empty()`) while leaving `hit_count` and
`miss_count` unchanged, so `stat()` after `purge` still reports the counts
accumulated before it. -/
theorem c10_purge_empties_keeps_stats :
    (∀ (c : Fifo Nat Nat), (c.purge).len = 0 ∧ (c.purge).is_empty = true ∧
      (c.purge).stat = c.stat) ∧
    (∀ (c : Lru Nat Nat), (c.purge).len = 0 ∧ (c.purge).is_empty = true ∧
      (c.purge).stat = c.stat) ∧
    (∀ (c : Slru Nat Nat), (c.purge).len = 0 ∧ (c.purge).is_empty = true ∧
      (c.purge).stat = c.stat) ∧
    (∀ (c : Q2 Nat Nat), (c.purge).len = 0 ∧ (c.purge).is_empty = true ∧
      (c.purge).stat = c.stat) :=
  ⟨fun _ => ⟨rfl, rfl, rfl⟩, fun _ => ⟨rfl, rfl, rfl⟩,
    fun _ => ⟨rfl, rfl, rfl⟩, fun _ => ⟨rfl, rfl, rfl⟩⟩

/-- C5 counterexample: on the LRU cache a `get` that finds its key does
not increment `hit_count` (the counters are never touched in `lru.rs`):
after `add(1,10)`, `get(1)` returns `some 10` yet `hit_count` stays 0
instead of being incremented by 1. -/
theorem c5_lru_get_counters_counterexample :
    ((((Lru.new 2 : Lru Nat Nat).add 1 10).1).get 1).2 = some 10 ∧
    ¬(((((Lru.new 2 : Lru Nat Nat).add 1 10).1).get 1).1.hit_count =
      (((Lru.new 2 : Lru Nat Nat).add 1 10).1).hit_count + 1) := by
  decide

/-- C5 amended: on the LRU cache, `get(k)` that finds `k` moves `k` to the
front and returns its value, but neither a hit nor a miss changes
`hit_count` or `miss_count`: the counters are dead and `stat()` reports
`(0, 0)` after every operation sequence from a fresh cache. -/
theorem c5_lru_get_amended :
    (∀ (c : Lru Nat Nat) (k : Nat), (c.get k).1.hit_count = c.hit_count ∧
      (c.get k).1.miss_count = c.miss_count) ∧
    (∀ (c : Lru Nat Nat) (k v : Nat), LinkedHashMap.get c.l_map k = some v →
      (c.get k).2 = some v ∧
      LinkedHashMap.front ((c.get k).1).l_map = some (k, v)) ∧
    (∀ (size : Nat) (ops : List (Op Nat Nat)),
      ((Lru.run (Lru.new size) ops).1).stat = (0, 0)) := by
  refine ⟨?_, ?_, ?_⟩
  · intro c k
    unfold Lru.get
    split
    · exact ⟨rfl, rfl⟩
    · exact ⟨rfl, rfl⟩
  · intro c k v h
    have hc : LinkedHashMap.contains_key c.l_map k = true := by
      unfold LinkedHashMap.contains_key
      rw [h]
      rfl
    unfold Lru.get
    rw [if_pos hc]
    dsimp only
    constructor
    · rw [LinkedHashMap.get_move_to_front_self, h]
    · exact LinkedHashMap.front_move_to_front h
  · intro size ops
    have h := Lru.run_counters ops (Lru.new size)
    show ((Lru.run (Lru.new size) ops).1.hit_count,
      (Lru.run (Lru.new size) ops).1.miss_count) = (0, 0)
    rw [h.1, h.2]
    rfl

/-- C6 counterexample: the FIFO cache does increment the statistics
counters: a single missing `get` on a fresh cache makes `stat()` report a
miss, so `stat()` is not constantly `(0, 0)`. -/
theorem c6_fifo_counters_counterexample :
    ¬(((Fifo.run (Fifo.new 1 : Fifo Nat Nat) [Op.get 5]).1).stat = (0, 0)) := by
  decide

/-- C6 amended: the FIFO cache's `get` increments `hit_count` by exactly 1
on a hit and `miss_count` by exactly 1 on a miss (`fifo.rs` lines 56-67);
the spec's remark that FIFO never increments them belongs to the LRU
cache. -/
theorem c6_fifo_get_counts_amended :
    (∀ (c : Fifo Nat Nat) (k v : Nat), LinkedHashMap.get c.l_map k = some v →
      (c.get k).1.hit_count = c.hit_count + 1 ∧
      (c.get k).1.miss_count = c.miss_count ∧ (c.get k).2 = some v) ∧
    (∀ (c : Fifo Nat Nat) (k : Nat), LinkedHashMap.get c.l_map k = none →
      (c.get k).1.miss_count = c.miss_count + 1 ∧
      (c.get k).1.hit_count = c.hit_count ∧ (c.get k).2 = none) := by
  constructor
  · intro c k v h
    unfold Fifo.get
    rw [h]
    exact ⟨rfl, rfl, rfl⟩
  · intro c k h
    unfold Fifo.get
    rw [h]
    exact ⟨rfl, rfl, rfl⟩

/-- C1: `push_front(k, v)` on a key already present replaces the stored
value, returns the old value, keeps the length and relinks the node at the
head (even when it already sat at an end), and symmetrically for
`push_back`; in particular the trace `push_front(1,'a'); push_front(2,'b');
push_front(1,'c')` yields `front = (1,'c')`, `back = (2,'b')`, `len = 2`,
with the third call returning `some 'a'`, and the mirrored `push_back`
trace behaves symmetrically. -/
theorem c1_push_replacement_relinks_at_end :
    (∀ (m : List (Nat × Char)) (k : Nat) (v old : Char),
      LinkedHashMap.get m k = some old →
      (LinkedHashMap.push_front m k v).2 = some old ∧
      LinkedHashMap.front (LinkedHashMap.push_front m k v).1 = some (k, v) ∧
      ((LinkedHashMap.push_front m k v).1).length = m.length ∧
      (LinkedHashMap.push_back m k v).2 = some old ∧
      LinkedHashMap.back (LinkedHashMap.push_back m k v).1 = some (k, v) ∧
      ((LinkedHashMap.push_back m k v).1).length = m.length) ∧
    ((LinkedHashMap.push_front (LinkedHashMap.push_front
        (LinkedHashMap.push_front ([] : List (Nat × Char)) 1 'a').1 2 'b').1
        1 'c').2 = some 'a' ∧
      LinkedHashMap.front (LinkedHashMap.push_front (LinkedHashMap.push_front
        (LinkedHashMap.push_front ([] : List (Nat × Char)) 1 'a').1 2 'b').1
        1 'c').1 = some (1, 'c') ∧
      LinkedHashMap.back (LinkedHashMap.push_front (LinkedHashMap.push_front
        (LinkedHashMap.push_front ([] : List (Nat × Char)) 1 'a').1 2 'b').1
        1 'c').1 = some (2, 'b') ∧
      ((LinkedHashMap.push_front (LinkedHashMap.push_front
        (LinkedHashMap.push_front ([] : List (Nat × Char)) 1 'a').1 2 'b').1
        1 'c').1).length = 2) ∧
    ((LinkedHashMap.push_back (LinkedHashMap.push_back
        (LinkedHashMap.push_back ([] : List (Nat × Char)) 1 'a').1 2 'b').1
        1 'c').2 = some 'a' ∧
      LinkedHashMap.back (LinkedHashMap.push_back (LinkedHashMap.push_back
        (LinkedHashMap.push_back ([] : List (Nat × Char)) 1 'a').1 2 'b').1
        1 'c').1 = some (1, 'c') ∧
      LinkedHashMap.front (LinkedHashMap.push_back (LinkedHashMap.push_back
        (LinkedHashMap.push_back ([] : List (Nat × Char)) 1 'a').1 2 'b').1
        1 'c').1 = some (2, 'b') ∧
      ((LinkedHashMap.push_back (LinkedHashMap.push_back
        (LinkedHashMap.push_back ([] : List (Nat × Char)) 1 'a').1 2 'b').1
        1 'c').1).length = 2) := by
  refine ⟨?_, by decide, by decide⟩
  intro m k v old h
  cases hre : LinkedHashMap.remove_entry m k with
  | mk fst snd =>
    cases fst with
    | none =>
      exfalso
      have hm := LinkedHashMap.remove_entry_snd_map (m := m) (k := k)
      rw [hre, h] at hm
      simp at hm
    | some p =>
      obtain ⟨k0, o⟩ := p
      have hk : k0 = k := LinkedHashMap.remove_entry_key (by rw [hre])
      have ho : o = old := by
        have hm := LinkedHashMap.remove_entry_snd_map (m := m) (k := k)
        rw [hre, h] at hm
        simpa using hm
      have hl : snd.length + 1 = m.length := by
        have hx := LinkedHashMap.length_remove_entry_some
          (m := m) (k := k) (p := (k0, o))
        rw [hre] at hx
        exact hx (by simp)
      subst hk
      subst ho
      unfold LinkedHashMap.push_front LinkedHashMap.push_back
      rw [hre]
      refine ⟨rfl, rfl, by simpa using hl, rfl, ?_, by simp; omega⟩
      unfold LinkedHashMap.back
      simp

/-- C8: on the FIFO cache, `add(k, v)` with `k` already present replaces
the value in place, returns the old value, does not evict and does not
reorder: the key sequence, the length and every other key's value are
unchanged. -/
theorem c8_fifo_overwrite_frame (c : Fifo Nat Nat) (k v old : Nat)
    (h : LinkedHashMap.get c.l_map k = some old) :
    (c.add k v).2.1 = some old ∧
    ((c.add k v).1).l_map.map Prod.fst = c.l_map.map Prod.fst ∧
    LinkedHashMap.get ((c.add k v).1).l_map k = some v ∧
    (∀ k2, k2 ≠ k → LinkedHashMap.get ((c.add k v).1).l_map k2 =
      LinkedHashMap.get c.l_map k2) ∧
    (c.add k v).2.2 = [] ∧
    ((c.add k v).1).l_map.length = c.l_map.length := by
  unfold Fifo.add
  rw [h]
  dsimp only
  exact ⟨rfl, LinkedHashMap.map_fst_set_value c.l_map k v,
    LinkedHashMap.get_set_value_self v h,
    fun k2 hk2 => LinkedHashMap.get_set_value_ne v hk2, rfl,
    LinkedHashMap.length_set_value c.l_map k v⟩

/-- C8 witness: overwriting key 7 in a concrete two-entry FIFO cache. -/
theorem c8_fifo_overwrite_frame_witness :
    (((((Fifo.new 2 : Fifo Nat Nat).add 7 1).1).add 8 2).1.add 7 5).2.1 =
      some 1 :=
  (c8_fifo_overwrite_frame ((((Fifo.new 2 : Fifo Nat Nat).add 7 1).1).add 8 2).1
    7 5 1 (by decide)).1

/-- C9: on every 2Q cache whose ghost-list capacity `max_size_out` is at
least 1 and whose ghost list is within that bound, every operation
sequence keeps `|out| ≤ max_size_out`: `ensure_space` pops the back of
`out` before pushing a fingerprint whenever the push would exceed the
bound, and `remove` and `purge` only shrink `out`. -/
theorem c9_q2_ghost_list_bounded (c : Q2 Nat Nat) (ops : List (Op Nat Nat))
    (h1 : 1 ≤ c.max_size_out) (h2 : c.out.length ≤ c.max_size_out) :
    ((Q2.run c ops).1).out.length ≤ c.max_size_out :=
  Q2.run_out ops c h1 h2

/-- C9 witness: a fresh capacity-4 2Q cache (ghost capacity 2) run over a
trace that overflows the admission queue repeatedly. -/
theorem c9_q2_ghost_list_bounded_witness :
    ((Q2.run (Q2.new 4 (fun k => k) : Q2 Nat Nat)
      [Op.add 1 1, Op.add 2 2, Op.add 3 3, Op.add 4 4, Op.add 5 5,
        Op.add 6 6, Op.add 7 7]).1).out.length ≤
      (Q2.new 4 (fun k => k) : Q2 Nat Nat).max_size_out :=
  c9_q2_ghost_list_bounded (Q2.new 4 (fun k => k)) _ (by decide) (by decide)

